import Mathlib

/-!
Verification of the `respiring` audio/video generator
(`src/respiring/skeleton.py`) against its design specification.

The numeric pipeline of `skeleton.py` is embedded shallowly:

* Python floats are idealised as exact numbers: function inputs are `ℚ`,
  waveform values (produced through `sin`/`exp`) live in `ℝ`.
* `np.int16` quantisation is truncation toward zero of an in-range value.
* Calls that raise in Python/NumPy (`np.linspace` with a negative sample
  count, `np.max` over an empty array, `np.zeros` with a negative length,
  division of numbers by zero) are modelled as `none` of an `Option` result.
* NumPy elementwise division of a nonzero array by the scalar `0.0` does
  not raise; it yields NaN samples whose later cast to `int16` is not a
  well-defined integer.  The embedding uses the Lean convention `x / 0 = 0`
  there; consequently no theorem below asserts anything about sample
  *values* unless the normalisation divisor is positive.
-/

set_option maxHeartbeats 1000000

namespace Respiring

/-- Python `int(x)`: truncation toward zero, on exact rationals. -/
def pyInt (x : ℚ) : ℤ := if 0 ≤ x then ⌊x⌋ else ⌈x⌉

/-- Python `%` on numbers, for a nonzero modulus: `t % m = t - m * ⌊t / m⌋`
(the result carries the sign of the divisor). -/
def pymod (t m : ℚ) : ℚ := t - m * ⌊t / m⌋

/-- The harmonic multiples `[1, 2, 2.8, 3.5, 4.5]` zipped with the
strengths `[0.5, 0.75, 0.33, 0.14, 0.05]` from `generate_bell_sound`. -/
def harmonics : List (ℚ × ℚ) :=
  [(1, 1/2), (2, 3/4), (14/5, 33/100), (7/2, 7/50), (9/2, 1/20)]

/-- Cast of an in-range float to `np.int16`: C truncation toward zero. -/
noncomputable def floatToInt16 (x : ℝ) : ℤ := if 0 ≤ x then ⌊x⌋ else ⌈x⌉

/-- The enveloped harmonic waveform of `generate_bell_sound` at time `t`:
`e^(-3 t) * Σ strength * sin(2 π harmonic * f * t)`, with the sum built up
by the source's accumulation loop. -/
noncomputable def bellWave (f : ℚ) (t : ℝ) : ℝ :=
  Real.exp (-3 * t) *
    (harmonics.foldl
      (fun acc hs => acc + (hs.2 : ℝ) * Real.sin (2 * Real.pi * (hs.1 : ℝ) * (f : ℝ) * t)) 0)

/-- Sample `k` of the bell waveform on the time axis
`np.linspace(0, d, N, endpoint=False)`, whose `k`-th point is `k * (d / N)`. -/
noncomputable def bellSample (f d : ℚ) (N : ℕ) (k : ℕ) : ℝ :=
  bellWave f ((k : ℝ) * ((d : ℝ) / (N : ℝ)))

/-- The pre-normalisation signal of `generate_bell_sound`: `N` samples of the
bell waveform. -/
noncomputable def rawSignal (f d : ℚ) (N : ℕ) : List ℝ :=
  (List.range N).map (bellSample f d N)

/-- Model of `np.max(np.abs(sound))` for a nonempty `sound` (all entries of the folded
list are nonnegative, so starting the fold at `0` is exact). -/
noncomputable def npMaxAbs (l : List ℝ) : ℝ := (l.map fun x => |x|).foldr max 0

/-- One normalised, quantised sample: `np.int16((x / m) * 32767)`. -/
noncomputable def quantize (m x : ℝ) : ℤ := floatToInt16 (x / m * 32767)

/-- Model of `BreathingExercise.generate_bell_sound(f, d, sr)`.

`n = int(d * sr)` samples are laid out; `np.linspace` raises for `n < 0`
and `np.max` raises on the empty signal when `n = 0`, both modelled as
`none`.  Otherwise the signal is normalised by its peak absolute value and
cast to `int16`. -/
noncomputable def generate_bell_sound (f d sr : ℚ) : Option (List ℤ) :=
  let n : ℤ := pyInt (d * sr)
  if n ≤ 0 then none
  else
    let s := rawSignal f d n.toNat
    some (s.map (quantize (npMaxAbs s)))

/-- The breathing pattern `(inhale, hold, exhale)`, in seconds. -/
structure Pattern where
  inhale : ℚ
  hold : ℚ
  exhale : ℚ

/-- Model of `self.cycle_duration = sum(pattern)`. -/
def Pattern.cycle_duration (p : Pattern) : ℚ := p.inhale + p.hold + p.exhale

/-- Model of `np.zeros(int(x), dtype=np.int16)`: raises for a negative length
(modelled `none`), otherwise a block of zero samples. -/
def npZeros (x : ℚ) : Option (List ℤ) :=
  if pyInt x < 0 then none else some (List.replicate (pyInt x).toNat 0)

/-- The concatenation loop of `sequence_bell_sounds`: starting from the
empty sequence, append one cycle per iteration. -/
def seqLoop (cycle : List ℤ) : ℕ → List ℤ
  | 0 => []
  | n + 1 => seqLoop cycle n ++ cycle

/-- Model of `BreathingExercise.sequence_bell_sounds(high_freq, low_freq, dur, sr)`:
inhale tone, hold silence and exhale tone are generated once, then
`int(dur / cycle_duration)` copies of their concatenation are emitted
(`dur / 0` raises, modelled `none`). -/
noncomputable def sequence_bell_sounds (p : Pattern) (highFreq lowFreq dur sr : ℚ) :
    Option (List ℤ) :=
  (generate_bell_sound highFreq p.inhale sr).bind fun inhaleSound =>
  (npZeros (p.hold * sr)).bind fun holdSound =>
  (generate_bell_sound lowFreq p.exhale sr).bind fun exhaleSound =>
  if p.cycle_duration = 0 then none
  else some (seqLoop (inhaleSound ++ holdSound ++ exhaleSound)
    (pyInt (dur / p.cycle_duration)).toNat)

/-- Value of `max_radius = min(canvas_size) / 4 = min(640, 480) / 4 = 120`. -/
def max_radius : ℚ := 120

/-- BGR fill colour of the inhale phase. -/
def inhaleColor : ℕ × ℕ × ℕ := (150, 200, 150)

/-- BGR fill colour of the hold phase. -/
def holdColor : ℕ × ℕ × ℕ := (220, 220, 250)

/-- BGR fill colour of the exhale phase. -/
def exhaleColor : ℕ × ℕ × ℕ := (200, 150, 150)

/-- The phase logic of `BreathingExercise.make_frame(t)`: the radius and
colour of the circle drawn on the black 640×480 canvas.  `t % 0` and a
division by a zero phase length raise `ZeroDivisionError` (modelled
`none`). -/
def make_frame (p : Pattern) (t : ℚ) : Option (ℚ × (ℕ × ℕ × ℕ)) :=
  if p.cycle_duration = 0 then none
  else
    let cp := pymod t p.cycle_duration
    if cp ≤ p.inhale then
      if p.inhale = 0 then none
      else some (max_radius * (cp / p.inhale), inhaleColor)
    else if cp ≤ p.inhale + p.hold then
      some (max_radius, holdColor)
    else if p.exhale = 0 then none
    else some (max_radius * (1 - (cp - p.inhale - p.hold) / p.exhale), exhaleColor)

/-! ### Basic lemmas about the embedded primitives -/

theorem pyInt_natCast (n : ℕ) : pyInt ((n : ℚ)) = n := by
  simp [pyInt]

theorem pyInt_nonneg_eq_floor {x : ℚ} (h : 0 ≤ x) : pyInt x = ⌊x⌋ := by
  simp [pyInt, h]

theorem one_le_pyInt {x : ℚ} (h : 1 ≤ x) : 1 ≤ pyInt x := by
  rw [pyInt_nonneg_eq_floor (by linarith)]
  exact_mod_cast Int.le_floor.mpr (by exact_mod_cast h)

theorem pyInt_eq_zero_of_lt_one {x : ℚ} (h0 : 0 ≤ x) (h1 : x < 1) : pyInt x = 0 := by
  rw [pyInt_nonneg_eq_floor h0]
  exact Int.floor_eq_zero_iff.mpr ⟨h0, h1⟩

/-- Identity `pymod t m = m * Int.fract (t / m)` for a nonzero modulus. -/
theorem pymod_eq_mul_fract {t m : ℚ} (hm : m ≠ 0) :
    pymod t m = m * Int.fract (t / m) := by
  rw [pymod, Int.fract]
  rw [mul_sub, mul_div_cancel₀ _ hm]

theorem pymod_nonneg {t m : ℚ} (hm : 0 < m) : 0 ≤ pymod t m := by
  rw [pymod_eq_mul_fract hm.ne.symm]
  exact mul_nonneg hm.le (Int.fract_nonneg _)

theorem pymod_lt {t m : ℚ} (hm : 0 < m) : pymod t m < m := by
  rw [pymod_eq_mul_fract hm.ne.symm]
  calc m * Int.fract (t / m) < m * 1 :=
        (mul_lt_mul_left hm).mpr (Int.fract_lt_one _)
    _ = m := mul_one m

theorem rawSignal_length (f d : ℚ) (N : ℕ) : (rawSignal f d N).length = N := by
  simp [rawSignal]

theorem bellSample_mem_rawSignal (f d : ℚ) {N k : ℕ} (hk : k < N) :
    bellSample f d N k ∈ rawSignal f d N := by
  exact List.mem_map_of_mem _ (List.mem_range.mpr hk)

/-- Every element's absolute value is bounded by `npMaxAbs`. -/
theorem abs_le_npMaxAbs {l : List ℝ} {x : ℝ} (hx : x ∈ l) : |x| ≤ npMaxAbs l := by
  induction l with
  | nil => cases hx
  | cons a t ih =>
    rw [npMaxAbs, List.map_cons, List.foldr_cons]
    rcases List.mem_cons.mp hx with h | h
    · subst h; exact le_max_left _ _
    · exact le_trans (ih h) (le_max_right _ _)

theorem npMaxAbs_nonneg (l : List ℝ) : 0 ≤ npMaxAbs l := by
  induction l with
  | nil => simp [npMaxAbs]
  | cons a t ih =>
    rw [npMaxAbs, List.map_cons, List.foldr_cons]
    exact le_trans ih (le_max_right _ _)

/-- On a nonempty list the fold computing `npMaxAbs` is attained by some
element. -/
theorem npMaxAbs_attained (a : ℝ) (t : List ℝ) :
    ∃ x ∈ a :: t, |x| = npMaxAbs (a :: t) := by
  induction t generalizing a with
  | nil =>
    refine ⟨a, List.mem_cons_self _ _, ?_⟩
    simp [npMaxAbs, max_eq_left (abs_nonneg a)]
  | cons b t ih =>
    have step : npMaxAbs (a :: b :: t) = max |a| (npMaxAbs (b :: t)) := by
      simp [npMaxAbs]
    rcases le_total (npMaxAbs (b :: t)) |a| with h | h
    · exact ⟨a, List.mem_cons_self _ _, by rw [step, max_eq_left h]⟩
    · obtain ⟨x, hx, hxe⟩ := ih b
      exact ⟨x, List.mem_cons_of_mem _ hx, by rw [step, max_eq_right h, hxe]⟩

theorem floatToInt16_intCast (n : ℤ) : floatToInt16 ((n : ℝ)) = n := by
  unfold floatToInt16
  split
  · exact Int.floor_intCast n
  · exact Int.ceil_intCast n

/-- Truncation toward zero does not increase the absolute value past an
integer bound. -/
theorem abs_floatToInt16_le {x : ℝ} {c : ℤ} (h : |x| ≤ (c : ℝ)) :
    |floatToInt16 x| ≤ c := by
  rcases abs_le.mp h with ⟨hl, hr⟩
  unfold floatToInt16
  split_ifs with hx
  · rw [abs_of_nonneg (Int.floor_nonneg.mpr hx)]
    calc ⌊x⌋ ≤ ⌊(c : ℝ)⌋ := Int.floor_le_floor hr
      _ = c := Int.floor_intCast c
  · push_neg at hx
    have hcl : (⌈x⌉ : ℤ) ≤ 0 := by
      calc ⌈x⌉ ≤ ⌈(0 : ℝ)⌉ := Int.ceil_le_ceil hx.le
        _ = 0 := Int.ceil_zero
    rw [abs_of_nonpos (by exact_mod_cast hcl)]
    have : (-c : ℤ) ≤ ⌈x⌉ := by
      calc (-c : ℤ) = ⌈((-c : ℤ) : ℝ)⌉ := (Int.ceil_intCast _).symm
        _ ≤ ⌈x⌉ := Int.ceil_le_ceil (by push_cast; linarith)
    omega

theorem quantize_abs_le {m x : ℝ} (hm : 0 < m) (hx : |x| ≤ m) :
    |quantize m x| ≤ 32767 := by
  apply abs_floatToInt16_le
  rw [abs_mul, abs_div]
  rw [abs_of_pos hm]
  have h1 : |x| / m ≤ 1 := (div_le_one hm).mpr hx
  calc |x| / m * |(32767 : ℝ)| ≤ 1 * |(32767 : ℝ)| := by
        apply mul_le_mul_of_nonneg_right h1 (abs_nonneg _)
    _ = |(32767 : ℝ)| := one_mul _
    _ = ((32767 : ℤ) : ℝ) := by norm_num

theorem quantize_self {m : ℝ} (hm : 0 < m) : quantize m m = 32767 := by
  unfold quantize
  rw [div_self hm.ne.symm, one_mul]
  rw [show ((32767 : ℝ)) = (((32767 : ℤ)) : ℝ) by norm_num]
  exact floatToInt16_intCast _

theorem quantize_neg_self {m : ℝ} (hm : 0 < m) : quantize m (-m) = -32767 := by
  unfold quantize
  rw [neg_div, div_self hm.ne.symm, neg_one_mul]
  rw [show ((-32767 : ℝ)) = (((-32767 : ℤ)) : ℝ) by norm_num]
  exact floatToInt16_intCast _

/-- Unfolding of a successful `generate_bell_sound` call. -/
theorem generate_bell_sound_eq_some (f d sr : ℚ) (h : 1 ≤ pyInt (d * sr)) :
    generate_bell_sound f d sr =
      some ((rawSignal f d (pyInt (d * sr)).toNat).map
        (quantize (npMaxAbs (rawSignal f d (pyInt (d * sr)).toNat)))) := by
  rw [generate_bell_sound]
  rw [if_neg (by omega)]

theorem generate_bell_sound_eq_none (f d sr : ℚ) (h : pyInt (d * sr) ≤ 0) :
    generate_bell_sound f d sr = none := by
  rw [generate_bell_sound]
  rw [if_pos h]

/-- The accumulation loop over `harmonics`, written out. -/
theorem bellWave_eq (f : ℚ) (t : ℝ) : bellWave f t =
    Real.exp (-3 * t) *
      ((1/2) * Real.sin (2 * Real.pi * 1 * (f : ℝ) * t)
       + (3/4) * Real.sin (2 * Real.pi * 2 * (f : ℝ) * t)
       + (33/100) * Real.sin (2 * Real.pi * (14/5) * (f : ℝ) * t)
       + (7/50) * Real.sin (2 * Real.pi * (7/2) * (f : ℝ) * t)
       + (1/20) * Real.sin (2 * Real.pi * (9/2) * (f : ℝ) * t)) := by
  unfold bellWave harmonics
  simp only [List.foldl]
  push_cast
  ring_nf

/-- Each harmonic term is positive while all five angular arguments stay
inside `(0, π)`, i.e. while `0 < f * t < 1/9`. -/
theorem sinterm_pos (f : ℚ) (t : ℝ) (h : ℝ) (hh : 0 < h) (hh9 : h ≤ 9/2)
    (h0 : 0 < (f : ℝ) * t) (h1 : (f : ℝ) * t < 1/9) :
    0 < Real.sin (2 * Real.pi * h * (f : ℝ) * t) := by
  have pi_pos := Real.pi_pos
  apply Real.sin_pos_of_pos_of_lt_pi
  · have e : 2 * Real.pi * h * (f : ℝ) * t = (2 * h) * ((f : ℝ) * t) * Real.pi := by ring
    rw [e]
    exact mul_pos (mul_pos (by linarith) h0) pi_pos
  · have hlt : (2 * h) * ((f : ℝ) * t) < 1 := by nlinarith
    calc 2 * Real.pi * h * (f : ℝ) * t = ((2 * h) * ((f : ℝ) * t)) * Real.pi := by ring
      _ < 1 * Real.pi := mul_lt_mul_of_pos_right hlt pi_pos
      _ = Real.pi := one_mul _

/-- The bell waveform is strictly positive while `0 < f * t < 1/9`. -/
theorem bellWave_pos (f : ℚ) (t : ℝ) (h0 : 0 < (f : ℝ) * t) (h1 : (f : ℝ) * t < 1/9) :
    0 < bellWave f t := by
  rw [bellWave_eq]
  have s1 := sinterm_pos f t 1 (by norm_num) (by norm_num) h0 h1
  have s2 := sinterm_pos f t 2 (by norm_num) (by norm_num) h0 h1
  have s3 := sinterm_pos f t (14/5) (by norm_num) (by norm_num) h0 h1
  have s4 := sinterm_pos f t (7/2) (by norm_num) (by norm_num) h0 h1
  have s5 := sinterm_pos f t (9/2) (by norm_num) (by norm_num) h0 h1
  have e := Real.exp_pos (-3 * t)
  have hsum : 0 < (1/2) * Real.sin (2 * Real.pi * 1 * (f : ℝ) * t)
       + (3/4) * Real.sin (2 * Real.pi * 2 * (f : ℝ) * t)
       + (33/100) * Real.sin (2 * Real.pi * (14/5) * (f : ℝ) * t)
       + (7/50) * Real.sin (2 * Real.pi * (7/2) * (f : ℝ) * t)
       + (1/20) * Real.sin (2 * Real.pi * (9/2) * (f : ℝ) * t) := by
    linarith
  exact mul_pos e hsum

/-- A concrete instance of a not-identically-zero signal: frequency `1/8`,
duration `1`, sample rate `2` (second sample at `t = 1/2`, `f * t = 1/16`). -/
theorem peakPos_demo : 0 < npMaxAbs (rawSignal (1/8) 1 2) := by
  have hb : 0 < bellSample (1/8) 1 2 1 := by
    unfold bellSample
    apply bellWave_pos
    · push_cast
      norm_num
    · push_cast
      norm_num
  have hmem : bellSample (1/8) 1 2 1 ∈ rawSignal (1/8) 1 2 :=
    bellSample_mem_rawSignal _ _ (by norm_num)
  have := abs_le_npMaxAbs hmem
  rw [abs_of_pos hb] at this
  linarith

theorem seqLoop_length (cs : List ℤ) (n : ℕ) :
    (seqLoop cs n).length = n * cs.length := by
  induction n with
  | zero => simp [seqLoop]
  | succ n ih =>
    rw [seqLoop, List.length_append, ih]
    ring

/-- Every element of the looped concatenation comes from the cycle. -/
theorem mem_seqLoop {cs : List ℤ} {q : ℤ} {n : ℕ} (hq : q ∈ seqLoop cs n) : q ∈ cs := by
  induction n with
  | zero => cases hq
  | succ n ih =>
    rw [seqLoop] at hq
    rcases List.mem_append.mp hq with h | h
    · exact ih h
    · exact h

/-- Index `k * |cs| + r` of the looped concatenation reads position `r` of
the cycle, for any complete cycle `k < n`. -/
theorem seqLoop_getElem (cs : List ℤ) (n k r : ℕ) (hk : k < n) (hr : r < cs.length) :
    (seqLoop cs n)[k * cs.length + r]? = cs[r]? := by
  induction n with
  | zero => omega
  | succ n ih =>
    rw [seqLoop]
    rcases Nat.lt_or_ge k n with h | h
    · have hlt : k * cs.length + r < (seqLoop cs n).length := by
        rw [seqLoop_length]
        have h1 : (k + 1) * cs.length ≤ n * cs.length := Nat.mul_le_mul_right _ h
        rw [Nat.succ_mul] at h1
        omega
      rw [List.getElem?_append, if_pos hlt]
      exact ih h
    · obtain rfl : k = n := by omega
      have hge : ¬ (k * cs.length + r < (seqLoop cs k).length) := by
        rw [seqLoop_length]
        omega
      rw [List.getElem?_append, if_neg hge, seqLoop_length]
      congr 1
      omega

theorem pyInt_nonpos {x : ℚ} (h : x ≤ 0) : pyInt x ≤ 0 := by
  unfold pyInt
  split_ifs
  · calc ⌊x⌋ ≤ ⌊(0 : ℚ)⌋ := Int.floor_le_floor h
      _ = 0 := Int.floor_zero
  · calc ⌈x⌉ ≤ ⌈(0 : ℚ)⌉ := Int.ceil_le_ceil h
      _ = 0 := Int.ceil_zero

/-! ### Claim theorems -/

/-- C1 (counterexample): with `duration = 1/2`, `sample_rate = 1` the claim
asks for a returned sequence of length `round(1/2) = 0`, but the call fails
(`np.max` of an empty array raises); and with `duration = 3/2`,
`sample_rate = 1` the returned length is `int(3/2) = 1`, not
`round(3/2) = 2`. -/
theorem C1_counterexample :
    generate_bell_sound 440 (1/2) 1 = none ∧
    (generate_bell_sound 440 (3/2) 1).map List.length = some 1 ∧
    (generate_bell_sound 440 (3/2) 1).map List.length ≠ some 2 := by
  have h2 : (generate_bell_sound 440 (3/2) 1).map List.length = some 1 := by
    rw [generate_bell_sound_eq_some 440 (3/2) 1 (by norm_num [pyInt])]
    simp only [Option.map_some', List.length_map, rawSignal_length]
    norm_num [pyInt]
  refine ⟨?_, h2, ?_⟩
  · exact generate_bell_sound_eq_none _ _ _ (by norm_num [pyInt])
  · rw [h2]
    simp

/-- C1 (amended): for every `frequency > 0`, `duration > 0`,
`sample_rate > 0` with `duration * sample_rate ≥ 1`, `generate_bell_sound`
returns a sequence whose length is `int(duration * sample_rate)`
(truncation toward zero). -/
theorem C1_length (f d sr : ℚ) (hf : 0 < f) (hd : 0 < d) (hsr : 0 < sr)
    (hn : 1 ≤ d * sr) :
    (generate_bell_sound f d sr).map List.length = some ((pyInt (d * sr)).toNat) := by
  rw [generate_bell_sound_eq_some f d sr (one_le_pyInt hn)]
  simp only [Option.map_some', List.length_map, rawSignal_length]

/-- Witness for `C1_length` at `frequency = 440`, `duration = 2`,
`sample_rate = 3`. -/
theorem C1_length_witness :
    (generate_bell_sound 440 2 3).map List.length = some ((pyInt (2 * 3)).toNat) :=
  C1_length 440 2 3 (by norm_num) (by norm_num) (by norm_num) (by norm_num)

/-- C3 (code behaviour at the failing inputs): for `duration ≤ 0` (and any
nonnegative `sample_rate`) `generate_bell_sound` fails instead of
returning the empty sequence: the sample count resolves to zero or less,
and `np.max` over the empty signal (resp. `np.linspace` with a negative
count) raises. -/
theorem C3_code_bug (f d sr : ℚ) (hd : d ≤ 0) (hsr : 0 ≤ sr) :
    generate_bell_sound f d sr = none := by
  apply generate_bell_sound_eq_none
  exact pyInt_nonpos (mul_nonpos_iff.mpr (Or.inr ⟨hd, hsr⟩))

/-- Witness for `C3_code_bug` at `frequency = 440`, `duration = 0`,
`sample_rate = 44100`. -/
theorem C3_code_bug_witness : generate_bell_sound 440 0 44100 = none :=
  C3_code_bug 440 0 44100 (by norm_num) (by norm_num)

/-- C4 (counterexample): with `frequency = 440 > 0`, `duration = 1/2 > 0`,
`sample_rate = 1 > 0` no output exists at all (the call fails on the empty
signal); and with `duration = 1`, `sample_rate = 1` the one-sample signal
(sampled only at `t = 0`) is identically zero, so the peak of its absolute
values is `0` and the normalising division `sound / 0` cannot produce a
peak of `32767`. -/
theorem C4_counterexample :
    generate_bell_sound 440 (1/2) 1 = none ∧ npMaxAbs (rawSignal 440 1 1) = 0 := by
  constructor
  · exact generate_bell_sound_eq_none _ _ _ (by norm_num [pyInt])
  · have h0 : bellSample 440 1 1 0 = 0 := by
      unfold bellSample bellWave harmonics
      simp
    have hr : rawSignal 440 1 1 = [bellSample 440 1 1 0] := by
      unfold rawSignal
      simp [List.range_succ]
    rw [hr, h0]
    simp [npMaxAbs]

/-- C4 (amended): for every `frequency > 0`, `duration > 0`,
`sample_rate > 0` such that at least one sample is laid out and the sampled
signal is not identically zero, the output of `generate_bell_sound` has
peak absolute sample value exactly `32767`. -/
theorem C4_peak (f d sr : ℚ) (hf : 0 < f) (hd : 0 < d) (hsr : 0 < sr)
    (hn : 1 ≤ d * sr)
    (hm : 0 < npMaxAbs (rawSignal f d (pyInt (d * sr)).toNat)) :
    ∃ l, generate_bell_sound f d sr = some l ∧
      (∀ q ∈ l, |q| ≤ 32767) ∧ (∃ q ∈ l, |q| = 32767) := by
  rw [generate_bell_sound_eq_some f d sr (one_le_pyInt hn)]
  refine ⟨_, rfl, ?_, ?_⟩
  · intro q hq
    obtain ⟨x, hx, rfl⟩ := List.mem_map.mp hq
    exact quantize_abs_le hm (abs_le_npMaxAbs hx)
  · have hN : 1 ≤ (pyInt (d * sr)).toNat := by
      have := one_le_pyInt hn
      omega
    obtain ⟨a, t, hs⟩ : ∃ a t, rawSignal f d (pyInt (d * sr)).toNat = a :: t := by
      rcases hsig : rawSignal f d (pyInt (d * sr)).toNat with _ | ⟨a, t⟩
      · have hlen := rawSignal_length f d (pyInt (d * sr)).toNat
        rw [hsig] at hlen
        simp at hlen
        omega
      · exact ⟨a, t, rfl⟩
    have hatt := npMaxAbs_attained a t
    rw [← hs] at hatt
    obtain ⟨x, hx, hxe⟩ := hatt
    rcases (abs_eq (le_of_lt hm)).mp hxe with hxv | hxv
    · refine ⟨quantize (npMaxAbs (rawSignal f d (pyInt (d * sr)).toNat)) x,
        List.mem_map_of_mem _ hx, ?_⟩
      rw [hxv, quantize_self hm]
      norm_num
    · refine ⟨quantize (npMaxAbs (rawSignal f d (pyInt (d * sr)).toNat)) x,
        List.mem_map_of_mem _ hx, ?_⟩
      rw [hxv, quantize_neg_self hm]
      norm_num

/-- Witness for `C4_peak` at `frequency = 1/8`, `duration = 1`,
`sample_rate = 2` (a two-sample signal whose second sample is strictly
positive). -/
theorem C4_peak_witness :
    ∃ l, generate_bell_sound (1/8) 1 2 = some l ∧
      (∀ q ∈ l, |q| ≤ 32767) ∧ (∃ q ∈ l, |q| = 32767) := by
  apply C4_peak (1/8) 1 2 (by norm_num) (by norm_num) (by norm_num) (by norm_num)
  have h2 : (pyInt ((1 : ℚ) * 2)).toNat = 2 := by
    rw [show pyInt ((1 : ℚ) * 2) = 2 from by norm_num [pyInt]]
    rfl
  rw [h2]
  exact peakPos_demo

/-- Unfolding of a successful `sequence_bell_sounds` call. -/
theorem sequence_bell_sounds_eq_some (p : Pattern) (hf lf dur sr : ℚ)
    (hi : 1 ≤ pyInt (p.inhale * sr)) (hh : 0 ≤ pyInt (p.hold * sr))
    (he : 1 ≤ pyInt (p.exhale * sr)) (hcd : p.cycle_duration ≠ 0) :
    sequence_bell_sounds p hf lf dur sr =
      some (seqLoop
        ((rawSignal hf p.inhale (pyInt (p.inhale * sr)).toNat).map
            (quantize (npMaxAbs (rawSignal hf p.inhale (pyInt (p.inhale * sr)).toNat)))
          ++ List.replicate (pyInt (p.hold * sr)).toNat 0
          ++ (rawSignal lf p.exhale (pyInt (p.exhale * sr)).toNat).map
            (quantize (npMaxAbs (rawSignal lf p.exhale (pyInt (p.exhale * sr)).toNat))))
        (pyInt (dur / p.cycle_duration)).toNat) := by
  rw [sequence_bell_sounds,
      generate_bell_sound_eq_some _ _ _ hi,
      generate_bell_sound_eq_some _ _ _ he,
      npZeros, if_neg (by omega)]
  simp only [Option.some_bind]
  rw [if_neg hcd]

/-- C2 (counterexample): the pattern `(0, 1, 1)` has `cycle_duration = 2 > 0`
but `sequence_bell_sounds` fails on it (the zero-length inhale tone raises)
instead of returning `floor(10/2) * 2 * 1` samples; and for the fractional
pattern `(3/2, 1, 3/2)` with `total_duration = 4`, `sample_rate = 1` the
result has `1 + 1 + 1 = 3` samples, not
`floor(4/4) * 4 * 1 = 4`. -/
theorem C2_counterexample :
    sequence_bell_sounds ⟨0, 1, 1⟩ 880 440 10 1 = none ∧
    (sequence_bell_sounds ⟨3/2, 1, 3/2⟩ 880 440 4 1).map List.length = some 3 ∧
    (sequence_bell_sounds ⟨3/2, 1, 3/2⟩ 880 440 4 1).map List.length ≠ some 4 := by
  have h2 : (sequence_bell_sounds ⟨3/2, 1, 3/2⟩ 880 440 4 1).map List.length = some 3 := by
    rw [sequence_bell_sounds_eq_some ⟨3/2, 1, 3/2⟩ 880 440 4 1
        (by norm_num [pyInt]) (by norm_num [pyInt]) (by norm_num [pyInt])
        (by norm_num [Pattern.cycle_duration])]
    simp only [Option.map_some', seqLoop_length, List.length_append,
      List.length_map, List.length_replicate, rawSignal_length]
    norm_num [pyInt, Pattern.cycle_duration]
  refine ⟨?_, h2, ?_⟩
  · rw [sequence_bell_sounds,
      generate_bell_sound_eq_none _ _ _ (by norm_num [pyInt])]
    rfl
  · rw [h2]
    simp

/-- C2 (amended): for every pattern whose inhale and exhale phases resolve
to at least one sample and whose hold phase to a nonnegative number of
samples, every `sample_rate > 0` and every `total_duration ≥ 0`, the
output length is `int(total_duration / cycle_duration)` copies of
`int(inhale*sr) + int(hold*sr) + int(exhale*sr)` samples (which equals
`floor(total/cycle) * cycle * sr` whenever the three products are whole
numbers); in particular `total_duration < cycle_duration` yields the empty
sequence, a valid result. -/
theorem C2_length (p : Pattern) (hf lf dur sr : ℚ) (hsr : 0 < sr)
    (hi : 1 ≤ p.inhale * sr) (hh : 0 ≤ p.hold * sr) (he : 1 ≤ p.exhale * sr)
    (hdur : 0 ≤ dur) :
    (sequence_bell_sounds p hf lf dur sr).map List.length =
      some ((pyInt (dur / p.cycle_duration)).toNat *
        ((pyInt (p.inhale * sr)).toNat + (pyInt (p.hold * sr)).toNat +
          (pyInt (p.exhale * sr)).toNat)) ∧
    (dur < p.cycle_duration → sequence_bell_sounds p hf lf dur sr = some []) := by
  have hipos : 0 < p.inhale := by
    rcases le_or_lt p.inhale 0 with h | h
    · nlinarith
    · exact h
  have hepos : 0 < p.exhale := by
    rcases le_or_lt p.exhale 0 with h | h
    · nlinarith
    · exact h
  have hhpos : 0 ≤ p.hold := by
    rcases le_or_lt p.hold 0 with h | h
    · nlinarith
    · exact h.le
  have hcd : 0 < p.cycle_duration := by
    rw [Pattern.cycle_duration]
    linarith
  have heq := sequence_bell_sounds_eq_some p hf lf dur sr
    (one_le_pyInt hi) (by rw [pyInt_nonneg_eq_floor (by linarith)]; positivity)
    (one_le_pyInt he) hcd.ne.symm
  constructor
  · rw [heq]
    simp only [Option.map_some', seqLoop_length, List.length_append,
      List.length_map, List.length_replicate, rawSignal_length]
  · intro hlt
    rw [heq]
    have hcnt : pyInt (dur / p.cycle_duration) = 0 := by
      apply pyInt_eq_zero_of_lt_one (by positivity)
      rw [div_lt_one hcd]
      exact hlt
    rw [hcnt]
    rfl

/-- Witness for `C2_length` with pattern `(1, 1, 1)`, `high_freq = 880`,
`low_freq = 440`, `total_duration = 2 < 3 = cycle_duration`,
`sample_rate = 1`. -/
theorem C2_length_witness :
    (sequence_bell_sounds ⟨1, 1, 1⟩ 880 440 2 1).map List.length =
      some ((pyInt ((2 : ℚ) / Pattern.cycle_duration ⟨1, 1, 1⟩)).toNat *
        ((pyInt ((1 : ℚ) * 1)).toNat + (pyInt ((1 : ℚ) * 1)).toNat +
          (pyInt ((1 : ℚ) * 1)).toNat)) ∧
    ((2 : ℚ) < Pattern.cycle_duration ⟨1, 1, 1⟩ →
      sequence_bell_sounds ⟨1, 1, 1⟩ 880 440 2 1 = some []) :=
  C2_length ⟨1, 1, 1⟩ 880 440 2 1 (by norm_num) (by norm_num) (by norm_num)
    (by norm_num) (by norm_num)

/-- C7: for pattern `(4, 7, 8)` and `total_duration = 60`, with any positive
integer `sample_rate`, every sample of `sequence_bell_sounds` whose index
lies in the hold range `[(19 k + 4) sr, (19 k + 11) sr)` of any emitted
cycle `k < 3` is zero. -/
theorem C7_hold_silent (hf lf : ℚ) (sr k j : ℕ) (hsr : 1 ≤ sr) (hk : k < 3)
    (hj1 : (19 * k + 4) * sr ≤ j) (hj2 : j < (19 * k + 11) * sr) :
    (sequence_bell_sounds ⟨4, 7, 8⟩ hf lf 60 (sr : ℚ)).bind (fun l => l[j]?) = some 0 := by
  have c4 : pyInt ((4 : ℚ) * (sr : ℚ)) = ((4 * sr : ℕ) : ℤ) := by
    rw [show (4 : ℚ) * (sr : ℚ) = ((4 * sr : ℕ) : ℚ) by push_cast; ring]
    exact pyInt_natCast _
  have c7 : pyInt ((7 : ℚ) * (sr : ℚ)) = ((7 * sr : ℕ) : ℤ) := by
    rw [show (7 : ℚ) * (sr : ℚ) = ((7 * sr : ℕ) : ℚ) by push_cast; ring]
    exact pyInt_natCast _
  have c8 : pyInt ((8 : ℚ) * (sr : ℚ)) = ((8 * sr : ℕ) : ℤ) := by
    rw [show (8 : ℚ) * (sr : ℚ) = ((8 * sr : ℕ) : ℚ) by push_cast; ring]
    exact pyInt_natCast _
  have hcnt : pyInt ((60 : ℚ) / Pattern.cycle_duration ⟨4, 7, 8⟩) = 3 := by
    norm_num [pyInt, Pattern.cycle_duration]
  have hseq := sequence_bell_sounds_eq_some ⟨4, 7, 8⟩ hf lf 60 sr
    (by rw [show Pattern.inhale ⟨4, 7, 8⟩ = 4 from rfl, c4]; exact_mod_cast by omega)
    (by rw [show Pattern.hold ⟨4, 7, 8⟩ = 7 from rfl, c7]; exact_mod_cast by omega)
    (by rw [show Pattern.exhale ⟨4, 7, 8⟩ = 8 from rfl, c8]; exact_mod_cast by omega)
    (by norm_num [Pattern.cycle_duration])
  rw [show Pattern.inhale ⟨4, 7, 8⟩ = 4 from rfl, show Pattern.hold ⟨4, 7, 8⟩ = 7 from rfl,
      show Pattern.exhale ⟨4, 7, 8⟩ = 8 from rfl, c4, c7, c8, hcnt,
      Int.toNat_natCast, Int.toNat_natCast, Int.toNat_natCast,
      show Int.toNat 3 = 3 from rfl] at hseq
  rw [hseq, Option.some_bind]
  set A := (rawSignal hf 4 (4 * sr)).map
    (quantize (npMaxAbs (rawSignal hf 4 (4 * sr)))) with hA
  set C := (rawSignal lf 8 (8 * sr)).map
    (quantize (npMaxAbs (rawSignal lf 8 (8 * sr)))) with hC
  have hAlen : A.length = 4 * sr := by
    rw [hA, List.length_map, rawSignal_length]
  have hClen : C.length = 8 * sr := by
    rw [hC, List.length_map, rawSignal_length]
  have hcyclen : (A ++ List.replicate (7 * sr) 0 ++ C).length = 19 * sr := by
    simp only [List.length_append, List.length_replicate, hAlen, hClen]
    omega
  have e1 : (19 * k + 4) * sr = 19 * (k * sr) + 4 * sr := by ring
  have e2 : (19 * k + 11) * sr = 19 * (k * sr) + 11 * sr := by ring
  rw [e1] at hj1
  rw [e2] at hj2
  obtain ⟨r, hr4, hr11, hj⟩ :
      ∃ r, 4 * sr ≤ r ∧ r < 11 * sr ∧ j = 19 * (k * sr) + r :=
    ⟨j - 19 * (k * sr), by omega, by omega, by omega⟩
  have hidx : j = k * (A ++ List.replicate (7 * sr) 0 ++ C).length + r := by
    rw [hj, hcyclen]
    ring
  have hr : r < (A ++ List.replicate (7 * sr) 0 ++ C).length := by
    rw [hcyclen]
    omega
  rw [hidx, seqLoop_getElem _ 3 k r hk hr]
  have hin : r < (A ++ List.replicate (7 * sr) 0).length := by
    simp only [List.length_append, List.length_replicate, hAlen]
    omega
  rw [List.getElem?_append, if_pos hin, List.getElem?_append, if_neg (by omega)]
  rw [hAlen]
  have : r - 4 * sr < 7 * sr := by omega
  simp [List.getElem?_replicate, this]

/-- Witness for `C7_hold_silent` at `sample_rate = 1`, cycle `k = 0`,
index `j = 4` (the first hold sample of the first cycle). -/
theorem C7_hold_silent_witness :
    (sequence_bell_sounds ⟨4, 7, 8⟩ 880 440 60 ((1 : ℕ) : ℚ)).bind
      (fun l => l[(4 : ℕ)]?) = some 0 :=
  C7_hold_silent 880 440 1 0 4 (by norm_num) (by norm_num) (by norm_num) (by norm_num)

theorem pyInt_intCast (n : ℤ) : pyInt ((n : ℚ)) = n := by
  unfold pyInt
  split_ifs
  · exact Int.floor_intCast n
  · exact Int.ceil_intCast n

/-! ### Branch lemmas for `make_frame` -/

theorem make_frame_inhale (p : Pattern) (t : ℚ) (hcd : p.cycle_duration ≠ 0)
    (h1 : pymod t p.cycle_duration ≤ p.inhale) (h2 : p.inhale ≠ 0) :
    make_frame p t =
      some (max_radius * (pymod t p.cycle_duration / p.inhale), inhaleColor) := by
  simp only [make_frame]
  rw [if_neg hcd, if_pos h1, if_neg h2]

theorem make_frame_inhale_div0 (p : Pattern) (t : ℚ) (hcd : p.cycle_duration ≠ 0)
    (h1 : pymod t p.cycle_duration ≤ p.inhale) (h2 : p.inhale = 0) :
    make_frame p t = none := by
  simp only [make_frame]
  rw [if_neg hcd, if_pos h1, if_pos h2]

theorem make_frame_hold (p : Pattern) (t : ℚ) (hcd : p.cycle_duration ≠ 0)
    (h1 : ¬ pymod t p.cycle_duration ≤ p.inhale)
    (h2 : pymod t p.cycle_duration ≤ p.inhale + p.hold) :
    make_frame p t = some (max_radius, holdColor) := by
  simp only [make_frame]
  rw [if_neg hcd, if_neg h1, if_pos h2]

theorem make_frame_exhale (p : Pattern) (t : ℚ) (hcd : p.cycle_duration ≠ 0)
    (h1 : ¬ pymod t p.cycle_duration ≤ p.inhale)
    (h2 : ¬ pymod t p.cycle_duration ≤ p.inhale + p.hold)
    (h3 : p.exhale ≠ 0) :
    make_frame p t =
      some (max_radius *
        (1 - (pymod t p.cycle_duration - p.inhale - p.hold) / p.exhale),
        exhaleColor) := by
  simp only [make_frame]
  rw [if_neg hcd, if_neg h1, if_neg h2, if_neg h3]

/-- Constructor-level restatement of `make_frame_inhale`. -/
theorem make_frame_mk_inhale (i h e t : ℚ) (hcd : i + h + e ≠ 0)
    (h1 : pymod t (i + h + e) ≤ i) (h2 : i ≠ 0) :
    make_frame ⟨i, h, e⟩ t =
      some (max_radius * (pymod t (i + h + e) / i), inhaleColor) :=
  make_frame_inhale ⟨i, h, e⟩ t hcd h1 h2

/-- Constructor-level restatement of `make_frame_inhale_div0`. -/
theorem make_frame_mk_inhale_div0 (i h e t : ℚ) (hcd : i + h + e ≠ 0)
    (h1 : pymod t (i + h + e) ≤ i) (h2 : i = 0) :
    make_frame ⟨i, h, e⟩ t = none :=
  make_frame_inhale_div0 ⟨i, h, e⟩ t hcd h1 h2

/-- Constructor-level restatement of `make_frame_hold`. -/
theorem make_frame_mk_hold (i h e t : ℚ) (hcd : i + h + e ≠ 0)
    (h1 : ¬ pymod t (i + h + e) ≤ i) (h2 : pymod t (i + h + e) ≤ i + h) :
    make_frame ⟨i, h, e⟩ t = some (max_radius, holdColor) :=
  make_frame_hold ⟨i, h, e⟩ t hcd h1 h2

/-- Constructor-level restatement of `make_frame_exhale`. -/
theorem make_frame_mk_exhale (i h e t : ℚ) (hcd : i + h + e ≠ 0)
    (h1 : ¬ pymod t (i + h + e) ≤ i) (h2 : ¬ pymod t (i + h + e) ≤ i + h)
    (h3 : e ≠ 0) :
    make_frame ⟨i, h, e⟩ t =
      some (max_radius * (1 - (pymod t (i + h + e) - i - h) / e), exhaleColor) :=
  make_frame_exhale ⟨i, h, e⟩ t hcd h1 h2 h3

/-- C5: for pattern `(6, 0, 6)` (cycle 12, zero-width hold) `make_frame`
never divides by zero for `t ≥ 0`, its hold branch is never entered (no
frame carries the hold colour), and whenever `t mod 12 = 6` the rendered
radius is exactly `max_radius`. -/
theorem C5_sharp_boundary (t : ℚ) (ht : 0 ≤ t) :
    ∃ r c, make_frame ⟨6, 0, 6⟩ t = some (r, c) ∧ c ≠ holdColor ∧
      (pymod t 12 = 6 → r = max_radius) := by
  have h6 : (6 : ℚ) + 0 + 6 = 12 := by norm_num
  by_cases hin : pymod t 12 ≤ 6
  · refine ⟨max_radius * (pymod t 12 / 6), inhaleColor, ?_, ?_, ?_⟩
    · have := make_frame_mk_inhale 6 0 6 t (by norm_num) (by rw [h6]; exact hin)
        (by norm_num)
      rw [h6] at this
      exact this
    · simp [inhaleColor, holdColor]
    · intro hb
      rw [hb]
      norm_num [max_radius]
  · refine ⟨max_radius * (1 - (pymod t 12 - 6 - 0) / 6), exhaleColor, ?_, ?_, ?_⟩
    · have := make_frame_mk_exhale 6 0 6 t (by norm_num) (by rw [h6]; exact hin)
        (by rw [h6]; simpa using hin) (by norm_num)
      rw [h6] at this
      exact this
    · simp [exhaleColor, holdColor]
    · intro hb
      rw [hb] at hin
      norm_num at hin

/-- Witness for `C5_sharp_boundary` at the boundary instant `t = 6`. -/
theorem C5_sharp_boundary_witness :
    ∃ r c, make_frame ⟨6, 0, 6⟩ 6 = some (r, c) ∧ c ≠ holdColor ∧
      (pymod 6 12 = 6 → r = max_radius) :=
  C5_sharp_boundary 6 (by norm_num)

/-- C6 (counterexample): for the degenerate pattern `(0, 5, 5)` (cycle 10,
zero-width inhale) the very first frame `t = 0` enters the inhale branch
with `cycle_progress = 0 ≤ 0` and divides by the zero inhale duration
(`ZeroDivisionError`); nothing is clamped. -/
theorem C6_counterexample : make_frame ⟨0, 5, 5⟩ 0 = none := by
  apply make_frame_mk_inhale_div0 0 5 5 0 (by norm_num)
  · rw [show pymod 0 (0 + 5 + 5) = 0 by norm_num [pymod]]
  · rfl

/-- C6 (amended): for every pattern with positive cycle duration and some
zero-width phase, `make_frame t` performs no division by zero at any
`t ≥ 0` — except exactly when the inhale phase is zero-width and `t` falls
on a cycle boundary (`t mod cycle_duration = 0`), where the inhale branch
divides by zero.  Zero-width hold and exhale phases never cause a division
(the hold branch has no division, and the exhale branch is unreachable when
`exhale = 0`). -/
theorem C6_no_div (p : Pattern) (t : ℚ) (hcd : 0 < p.cycle_duration)
    (hz : p.inhale = 0 ∨ p.hold = 0 ∨ p.exhale = 0) (ht : 0 ≤ t)
    (hex : ¬ (p.inhale = 0 ∧ pymod t p.cycle_duration = 0)) :
    (make_frame p t).isSome := by
  have h0 := pymod_nonneg (t := t) hcd
  have h1 := pymod_lt (t := t) hcd
  by_cases hin : pymod t p.cycle_duration ≤ p.inhale
  · have hi0 : p.inhale ≠ 0 := by
      intro hi
      exact hex ⟨hi, le_antisymm (hi ▸ hin) h0⟩
    rw [make_frame_inhale p t hcd.ne' hin hi0]
    rfl
  · by_cases hhold : pymod t p.cycle_duration ≤ p.inhale + p.hold
    · rw [make_frame_hold p t hcd.ne' hin hhold]
      rfl
    · have he0 : p.exhale ≠ 0 := by
        intro he
        have hcde : p.cycle_duration = p.inhale + p.hold := by
          rw [Pattern.cycle_duration, he, add_zero]
        exact hhold (lt_of_lt_of_le h1 hcde.le).le
      rw [make_frame_exhale p t hcd.ne' hin hhold he0]
      rfl

/-- Witness for `C6_no_div` with pattern `(0, 5, 5)` at `t = 3` (not on a
cycle boundary). -/
theorem C6_no_div_witness : (make_frame ⟨0, 5, 5⟩ 3).isSome := by
  apply C6_no_div ⟨0, 5, 5⟩ 3
  · norm_num [Pattern.cycle_duration]
  · left
    rfl
  · norm_num
  · rw [show Pattern.cycle_duration ⟨0, 5, 5⟩ = 10 from by
        norm_num [Pattern.cycle_duration]]
    rw [show pymod 3 10 = 3 by norm_num [pymod]]
    norm_num

/-- C9: with all three phases positive, both phase upper boundaries are
inclusive: at `cycle_progress = inhale` the inhale branch renders
`(max_radius, inhale colour)`, at `cycle_progress = inhale + hold` the hold
branch renders `(max_radius, hold colour)`, and the exhale colour appears
exactly for `cycle_progress > inhale + hold`. -/
theorem C9_boundaries (i h e : ℚ) (hi : 0 < i) (hh : 0 < h) (he : 0 < e) :
    (∀ t, pymod t (i + h + e) = i →
      make_frame ⟨i, h, e⟩ t = some (max_radius, inhaleColor)) ∧
    (∀ t, pymod t (i + h + e) = i + h →
      make_frame ⟨i, h, e⟩ t = some (max_radius, holdColor)) ∧
    (∀ t, i + h < pymod t (i + h + e) →
      ∃ r, make_frame ⟨i, h, e⟩ t = some (r, exhaleColor)) ∧
    (∀ t, pymod t (i + h + e) ≤ i + h →
      ∀ r, make_frame ⟨i, h, e⟩ t ≠ some (r, exhaleColor)) := by
  have hcd0 : i + h + e ≠ 0 := by linarith
  refine ⟨?_, ?_, ?_, ?_⟩
  · intro t hcp
    rw [make_frame_mk_inhale i h e t hcd0 (by rw [hcp]) hi.ne', hcp,
        div_self hi.ne', mul_one]
  · intro t hcp
    apply make_frame_mk_hold i h e t hcd0
    · rw [hcp]
      simp only [not_le]
      linarith
    · rw [hcp]
  · intro t hcp
    refine ⟨_, make_frame_mk_exhale i h e t hcd0 ?_ ?_ he.ne'⟩
    · simp only [not_le]
      linarith
    · simp only [not_le]
      exact hcp
  · intro t hcp r hcontra
    by_cases hin : pymod t (i + h + e) ≤ i
    · rw [make_frame_mk_inhale i h e t hcd0 hin hi.ne'] at hcontra
      simp [inhaleColor, exhaleColor] at hcontra
    · rw [make_frame_mk_hold i h e t hcd0 hin hcp] at hcontra
      simp [holdColor, exhaleColor] at hcontra

/-- Witness for `C9_boundaries` with the all-positive pattern `(1, 1, 1)`. -/
theorem C9_boundaries_witness :
    (∀ t, pymod t ((1 : ℚ) + 1 + 1) = 1 →
      make_frame ⟨1, 1, 1⟩ t = some (max_radius, inhaleColor)) ∧
    (∀ t, pymod t ((1 : ℚ) + 1 + 1) = 1 + 1 →
      make_frame ⟨1, 1, 1⟩ t = some (max_radius, holdColor)) ∧
    (∀ t, (1 : ℚ) + 1 < pymod t ((1 : ℚ) + 1 + 1) →
      ∃ r, make_frame ⟨1, 1, 1⟩ t = some (r, exhaleColor)) ∧
    (∀ t, pymod t ((1 : ℚ) + 1 + 1) ≤ 1 + 1 →
      ∀ r, make_frame ⟨1, 1, 1⟩ t ≠ some (r, exhaleColor)) :=
  C9_boundaries 1 1 1 (by norm_num) (by norm_num) (by norm_num)

/-- C8 (code behaviour at the failing input): nothing validates the
pattern.  `BreathingExercise.__init__` stores `(4, -1, 8)` (negative hold)
unchecked, `sequence_bell_sounds` synthesises the inhale tone — generation
has begun — and only then fails, when `np.zeros(int(-1 * 44100))` raises;
no rejection ever happens before generation. -/
theorem C8_code_bug :
    sequence_bell_sounds ⟨4, -1, 8⟩ 880 440 60 44100 = none := by
  rw [sequence_bell_sounds]
  have hz : npZeros (Pattern.hold ⟨4, -1, 8⟩ * 44100) = none := by
    rw [npZeros, if_pos]
    rw [show Pattern.hold ⟨4, -1, 8⟩ * (44100 : ℚ) = ((-44100 : ℤ) : ℚ) from by norm_num]
    rw [pyInt_intCast]
    norm_num
  simp only [hz, Option.none_bind]
  cases generate_bell_sound 880 (Pattern.inhale ⟨4, -1, 8⟩) 44100 with
  | none => rfl
  | some l => rfl

/-- C10: every sample emitted by `generate_bell_sound` (for inputs yielding
a non-empty, not-identically-zero signal) and by `sequence_bell_sounds`
(when its inhale and exhale tones satisfy the same proviso) lies in
`[-32767, 32767]`; the 16-bit minimum `-32768` never occurs. -/
theorem C10_sample_range :
    (∀ f d sr : ℚ, 0 < f → 0 < d → 0 < sr → 1 ≤ d * sr →
      0 < npMaxAbs (rawSignal f d (pyInt (d * sr)).toNat) →
      ∃ l, generate_bell_sound f d sr = some l ∧
        ∀ q ∈ l, -32767 ≤ q ∧ q ≤ 32767) ∧
    (∀ (p : Pattern) (hf lf dur sr : ℚ), 0 < sr →
      1 ≤ p.inhale * sr → 0 ≤ p.hold * sr → 1 ≤ p.exhale * sr →
      0 < npMaxAbs (rawSignal hf p.inhale (pyInt (p.inhale * sr)).toNat) →
      0 < npMaxAbs (rawSignal lf p.exhale (pyInt (p.exhale * sr)).toNat) →
      ∃ l, sequence_bell_sounds p hf lf dur sr = some l ∧
        ∀ q ∈ l, -32767 ≤ q ∧ q ≤ 32767) := by
  constructor
  · intro f d sr hf hd hsr hn hm
    rw [generate_bell_sound_eq_some f d sr (one_le_pyInt hn)]
    refine ⟨_, rfl, ?_⟩
    intro q hq
    obtain ⟨x, hx, rfl⟩ := List.mem_map.mp hq
    exact abs_le.mp (quantize_abs_le hm (abs_le_npMaxAbs hx))
  · intro p hf lf dur sr hsr hi hh he hmi hme
    have hcd : 0 < p.cycle_duration := by
      have hipos : 0 < p.inhale := by
        rcases le_or_lt p.inhale 0 with h | h
        · nlinarith
        · exact h
      have hepos : 0 < p.exhale := by
        rcases le_or_lt p.exhale 0 with h | h
        · nlinarith
        · exact h
      have hhpos : 0 ≤ p.hold := by
        rcases le_or_lt p.hold 0 with h | h
        · nlinarith
        · exact h.le
      rw [Pattern.cycle_duration]
      linarith
    have hhnn : 0 ≤ p.hold * sr := hh
    rw [sequence_bell_sounds_eq_some p hf lf dur sr (one_le_pyInt hi)
      (by rw [pyInt_nonneg_eq_floor hhnn]; positivity) (one_le_pyInt he) hcd.ne']
    refine ⟨_, rfl, ?_⟩
    intro q hq
    have hq2 := mem_seqLoop hq
    rcases List.mem_append.mp hq2 with hq3 | hq3
    · rcases List.mem_append.mp hq3 with hq4 | hq4
      · obtain ⟨x, hx, rfl⟩ := List.mem_map.mp hq4
        exact abs_le.mp (quantize_abs_le hmi (abs_le_npMaxAbs hx))
      · have hq0 : q = 0 := List.eq_of_mem_replicate hq4
        subst hq0
        norm_num
    · obtain ⟨x, hx, rfl⟩ := List.mem_map.mp hq3
      exact abs_le.mp (quantize_abs_le hme (abs_le_npMaxAbs hx))

/-- Witness for `C10_sample_range`: the tone `(1/8, 1, 2)` of
`peakPos_demo` and the sequence for pattern `(1, 1, 1)` built from two such
tones. -/
theorem C10_sample_range_witness :
    (∃ l, generate_bell_sound (1/8) 1 2 = some l ∧
      ∀ q ∈ l, -32767 ≤ q ∧ q ≤ 32767) ∧
    (∃ l, sequence_bell_sounds ⟨1, 1, 1⟩ (1/8) (1/8) 3 2 = some l ∧
      ∀ q ∈ l, -32767 ≤ q ∧ q ≤ 32767) := by
  have htoNat : (pyInt ((1 : ℚ) * 2)).toNat = 2 := by
    rw [show pyInt ((1 : ℚ) * 2) = 2 from by norm_num [pyInt]]
    rfl
  constructor
  · apply C10_sample_range.1 (1/8) 1 2 (by norm_num) (by norm_num) (by norm_num)
      (by norm_num)
    rw [htoNat]
    exact peakPos_demo
  · apply C10_sample_range.2 ⟨1, 1, 1⟩ (1/8) (1/8) 3 2 (by norm_num)
      (by norm_num) (by norm_num) (by norm_num)
    · show 0 < npMaxAbs (rawSignal (1/8) 1 (pyInt ((1 : ℚ) * 2)).toNat)
      rw [htoNat]
      exact peakPos_demo
    · show 0 < npMaxAbs (rawSignal (1/8) 1 (pyInt ((1 : ℚ) * 2)).toNat)
      rw [htoNat]
      exact peakPos_demo

end Respiring
